import Mathlib

/-!
# Verification of the email-payload cleaning pipeline (`mbox_to_sqlite/clean.py`)

A shallow embedding of `EmailCleaner` over `List Char` (one Python `str`
code point per list element).  External library calls are parameters of the
embedding:

* `html2text.HTML2Text.handle`  — `conv : List Char → Option (List Char)`,
  `none` models the call raising an exception;
* `BeautifulSoup(...).get_text`  — `soup : List Char → List Char`
  (its failure is not caught in the source, and it is treated as total);
* `quotequail.unwrap` followed by `.strip()` — `unwrap : List Char → Option (List Char)`,
  `none` models an unavailable module or a raising call.

Python regular expressions appearing in the source are compiled by hand into
dedicated scanners; each scanner's doc comment cites the regex it implements.
Python `float` arithmetic for the reduction statistic is modelled by exact
rationals, and `round(x, 2)` by round-half-to-even at two decimals.
Whitespace classes (`\s`, `str.strip`) are modelled by the ASCII whitespace
characters; non-ASCII whitespace is not needed by any statement below.
-/

namespace MboxClean

/-- Code points of a string literal, the representation of Python `str`. -/
def chars (s : String) : List Char :=
  s.data

/-- The characters matched by the regex class `[ \t]`. -/
def isHT (c : Char) : Bool :=
  c = ' ' || c = '\t'

/-- ASCII whitespace: the characters of Python `string.whitespace`, i.e. what
`str.strip()` removes and `\s` matches on the inputs considered here. -/
def isPyWs (c : Char) : Bool :=
  c = ' ' || c = '\t' || c = '\n' || c = '\r' || c = '\x0b' || c = '\x0c'

/-- Whitespace other than a newline (trailing characters of a single line). -/
def isLineWs (c : Char) : Bool :=
  isPyWs c && c != '\n'

/-- Python `str.lstrip()`. -/
def lstripL (t : List Char) : List Char :=
  t.dropWhile isPyWs

/-- Python `str.rstrip()`. -/
def rstripL (t : List Char) : List Char :=
  (t.reverse.dropWhile isPyWs).reverse

/-- Python `str.strip()`. -/
def stripL (t : List Char) : List Char :=
  lstripL (rstripL t)

/-- Python `text.split('\n')`. -/
def splitNL : List Char → List (List Char)
  | [] => [[]]
  | c :: cs =>
    if c = '\n' then [] :: splitNL cs
    else
      match splitNL cs with
      | [] => [[c]]
      | l :: ls => (c :: l) :: ls

/-- Python `'\n'.join(lines)`. -/
def joinNL : List (List Char) → List Char
  | [] => []
  | [l] => l
  | l :: l₂ :: ls => l ++ '\n' :: joinNL (l₂ :: ls)

/-- Python `sep.join(parts)` for a general separator. -/
def joinSep (sep : List Char) : List (List Char) → List Char
  | [] => []
  | [l] => l
  | l :: l₂ :: ls => l ++ sep ++ joinSep sep (l₂ :: ls)

/-- Python `text.find(pat)`: index of the leftmost occurrence of `pat`. -/
def findFrom (pat : List Char) : List Char → Option Nat
  | [] => if pat.isEmpty then some 0 else none
  | c :: cs =>
    if pat.isPrefixOf (c :: cs) then some 0
    else (findFrom pat cs).map (· + 1)

/-- Python `pat in text` (substring test). -/
def containsSeq (pat : List Char) (t : List Char) : Bool :=
  (findFrom pat t).isSome

/-- Case-insensitive prefix test: `pat` is given lowercase and is compared
against the `str.lower()` image of `t` (`re.IGNORECASE` literals). -/
def ciPrefix (pat : List Char) (t : List Char) : Bool :=
  pat.isPrefixOf (t.map Char.toLower)

/-- `re.sub(cls ++ '+', ' ', ·)` for a character class `cls`: every maximal
run of class characters becomes a single space.  The flag records whether the
scanner is inside a run whose replacement space was already emitted. -/
def collapseRuns (p : Char → Bool) : Bool → List Char → List Char
  | _, [] => []
  | inRun, c :: cs =>
    if p c then
      if inRun then collapseRuns p true cs
      else ' ' :: collapseRuns p true cs
    else c :: collapseRuns p false cs

/-- `re.sub(r'\n{cap+1,}', '\n' * cap, ·)`: newline runs longer than `cap`
are truncated to `cap` newlines; `n` counts the newlines of the current run
already emitted. -/
def capRunsNL (cap : Nat) : Nat → List Char → List Char
  | _, [] => []
  | n, c :: cs =>
    if c = '\n' then
      if cap ≤ n then capRunsNL cap n cs
      else '\n' :: capRunsNL cap (n + 1) cs
    else c :: capRunsNL cap 0 cs

/-- Python `text.split(sep)` for a non-empty separator, by fuel-bounded
scanning (the fuel is instantiated with the text length, which each step
strictly exceeds the consumption of). -/
def splitGo (sep : List Char) : Nat → List Char → List Char → List (List Char)
  | 0, rest, acc => [acc.reverse ++ rest]
  | fuel + 1, t, acc =>
    match t with
    | [] => [acc.reverse]
    | c :: cs =>
      if sep.isPrefixOf (c :: cs) then
        acc.reverse :: splitGo sep fuel (List.drop sep.length (c :: cs)) []
      else splitGo sep fuel cs (c :: acc)

/-- Python `text.split(sep)` for the non-empty separators used here. -/
def splitOnSeq (sep t : List Char) : List (List Char) :=
  splitGo sep t.length t []

/-- The three cleaning levels accepted by `EmailCleaner.__init__`. -/
inductive Level where
  | minimal
  | standard
  | aggressive
deriving DecidableEq

/-- Optional metadata passed to `clean` (`message_info`); the current
annotator ignores its content entirely. -/
structure MessageInfo where
  headers : List (List Char × List Char)

/-- The external library calls of `clean.py`, as parameters of the embedding.
`none` models the call raising an exception at that call site. -/
structure Ext where
  conv : List Char → Option (List Char)
  soup : List Char → List Char
  unwrap : List Char → Option (List Char)

/-- After a `src=["']cid:` or `alt=["']` attribute head has been located:
parses `([^"']+)["'][^>]*>` and returns the capture and the text after the
closing `>`.  The capture is the maximal run of non-quote characters, which
is the unique candidate the regex backtracking would accept. -/
def parseAttrTail (u : List Char) : Option (List Char × List Char) :=
  let cap := u.takeWhile (fun c => !(c = '"' || c = '\''))
  match u.drop cap.length with
  | q :: r₂ =>
    if q = '"' || q = '\'' then
      if cap.isEmpty then none
      else
        match r₂.dropWhile (fun c => c != '>') with
        | '>' :: r₄ => some (cap, r₄)
        | _ => none
    else none
  | [] => none

/-- Tries the attribute pattern at the head of `u`. `attr` is `src=` or
`alt=`; when `needCid` is set the opening quote must be followed by `cid:`
(consumed before the capture). -/
def tryAttrAt (attr : List Char) (needCid : Bool) (u : List Char) : Option (List Char × List Char) :=
  if ciPrefix attr u then
    match u.drop attr.length with
    | q :: v =>
      if q = '"' || q = '\'' then
        if needCid then
          if ciPrefix (chars "cid:") v then parseAttrTail (v.drop 4) else none
        else parseAttrTail v
      else none
    | [] => none
  else none

/-- Iterates `tryAttrAt` over offsets `k`, `k - 1`, …, `0` of `u`: the
rightmost position first, as the greedy `[^>]*` before the attribute does. -/
def tryAttrDown (attr : List Char) (needCid : Bool) (u : List Char) : Nat → Option (List Char × List Char)
  | 0 => tryAttrAt attr needCid u
  | k + 1 =>
    match tryAttrAt attr needCid (u.drop (k + 1)) with
    | some r => some r
    | none => tryAttrDown attr needCid u k

/-- A match attempt of `<img[^>]*src=["']cid:([^"']+)["'][^>]*>` (or the
`alt=` variant) at the current position: requires the case-insensitive
`<img` head, then searches the attribute inside the window of characters
reachable by `[^>]*`. -/
def matchImg (attr : List Char) (needCid : Bool) (t : List Char) : Option (List Char × List Char) :=
  if ciPrefix (chars "<img") t then
    let u := t.drop 4
    tryAttrDown attr needCid u (u.takeWhile (fun c => c != '>')).length
  else none

/-- `re.sub` scan for the two `<img>` patterns of `_replace_inline_images`:
at each position, replace a match by `pre ++ capture ++ ']'` and resume after
the match, else keep the character.  Fuel-bounded; a match consumes at least
one character, so the text length is adequate fuel. -/
def subImg (attr : List Char) (needCid : Bool) (pre : List Char) : Nat → List Char → List Char
  | _, [] => []
  | 0, t => t
  | fuel + 1, c :: cs =>
    match matchImg attr needCid (c :: cs) with
    | some (cap, rest) => pre ++ cap ++ ']' :: subImg attr needCid pre fuel rest
    | none => c :: subImg attr needCid pre fuel cs

/-- `EmailCleaner._replace_inline_images`: rewrites
`<img[^>]*src=["']cid:([^"']+)["'][^>]*>` to `[Inline image: \1]`, then
`<img[^>]*alt=["']([^"']+)["'][^>]*>` to `[Image: \1]` (both `IGNORECASE`). -/
def replaceInlineImages (t : List Char) : List Char :=
  let t₁ := subImg (chars "src=") true (chars "[Inline image: ") t.length t
  subImg (chars "alt=") false (chars "[Image: ") t₁.length t₁

/-- The HTML sniff of `_extract_text`:
`'<html' in payload.lower() or '<div' in payload.lower() or '<p>' in payload.lower()`. -/
def sniffHtml (payload : List Char) : Bool :=
  let low := payload.map Char.toLower
  containsSeq (chars "<html") low || containsSeq (chars "<div") low || containsSeq (chars "<p>") low

/-- The multipart separator `'\n\n---PART---\n\n'`. -/
def partSep : List Char :=
  chars "\n\n---PART---\n\n"

/-- The per-part body of the loop in `_extract_text` (the part is already
stripped and non-empty): an HTML-looking part has its inline images replaced
and is converted, falling back to the `BeautifulSoup` extractor when the
converter raises; a plain part passes through. -/
def handlePart (E : Ext) (part : List Char) : List Char :=
  if part.any (· = '<') && part.any (· = '>') then
    (E.conv (replaceInlineImages part)).getD (E.soup (replaceInlineImages part))
  else part

/-- `'\n\n'.join(cleaned_parts) if cleaned_parts else payload`. -/
def assembleParts (cleanedParts : List (List Char)) (payload : List Char) : List Char :=
  if cleanedParts.isEmpty then payload else joinSep (chars "\n\n") cleanedParts

/-- `EmailCleaner._extract_text`. -/
def extractText (E : Ext) (payload : List Char) : List Char :=
  if sniffHtml payload then
    assembleParts
      ((((splitOnSeq partSep payload).map stripL).filter (fun x => !x.isEmpty)).map (handlePart E))
      payload
  else payload

/-- `re.sub(r'<mailto:([^>]+)>', r'\1', ·)` and the `tel:` variant: unwraps
`tag cap '>'` to `cap` (non-empty capture of non-`>` characters), scanning
left to right with fuel. -/
def subUnwrapTag (tag : List Char) : Nat → List Char → List Char
  | _, [] => []
  | 0, t => t
  | fuel + 1, c :: cs =>
    if tag.isPrefixOf (c :: cs) then
      let u := (c :: cs).drop tag.length
      let cap := u.takeWhile (fun d => d != '>')
      match u.drop cap.length with
      | '>' :: rest =>
        if cap.isEmpty then c :: subUnwrapTag tag fuel cs
        else cap ++ subUnwrapTag tag fuel rest
      | _ => c :: subUnwrapTag tag fuel cs
    else c :: subUnwrapTag tag fuel cs

/-- `EmailCleaner._minimal_clean`: `re.sub(r'\n{4,}', '\n\n\n', ·)`, then the
`<mailto:…>` and `<tel:…>` unwrapping substitutions. -/
def minimalClean (t : List Char) : List Char :=
  let t₁ := capRunsNL 3 0 t
  let t₂ := subUnwrapTag (chars "<mailto:") t₁.length t₁
  subUnwrapTag (chars "<tel:") t₂.length t₂

/-- `re.sub(r'\n-- \n.*', '', ·, flags=DOTALL|IGNORECASE)`: the single
possible match runs from the leftmost occurrence of the delimiter to the end
of the text, so the substitution truncates there. -/
def truncAt (pat : List Char) (t : List Char) : List Char :=
  match findFrom pat t with
  | some i => t.take i
  | none => t

/-- Leftmost position where the end-anchored signature pattern
`phrase ++ r'\s*$.*'` (DOTALL, IGNORECASE) matches: the lowercase `phrase`
must be a case-insensitive prefix there and everything after it whitespace. -/
def findEndPhrase (phrase : List Char) : List Char → Option Nat
  | [] => none
  | c :: cs =>
    if ciPrefix phrase (c :: cs) && ((c :: cs).drop phrase.length).all isPyWs then some 0
    else (findEndPhrase phrase cs).map (· + 1)

/-- `re.sub(phrase ++ r'\s*$.*', '', ·, flags=DOTALL|IGNORECASE)`. -/
def truncEndPhrase (phrase : List Char) (t : List Char) : List Char :=
  match findEndPhrase phrase t with
  | some i => t.take i
  | none => t

/-- `EmailCleaner._remove_signatures`: the five signature markers applied in
order, each discarding everything from its match onward. -/
def removeSignatures (t : List Char) : List Char :=
  let t₁ := truncAt (chars "\n-- \n") t
  let t₂ := truncEndPhrase (chars "\nsent from my iphone") t₁
  let t₃ := truncEndPhrase (chars "\nsent from my ipad") t₂
  let t₄ := truncEndPhrase (chars "\nget outlook for ios") t₃
  truncEndPhrase (chars "\nget outlook for android") t₄

/-- The boundary scan of `_remove_boilerplate`: for each section marker in
order, `pos = text.find(marker, start)`; the first one with
`start < pos < nominal` resolves the span end, else the nominal end stands. -/
def findBoundary (t : List Char) (start nominal : Nat) : List (List Char) → Nat
  | [] => nominal
  | m :: ms =>
    match findFrom m (t.drop start) with
    | some rel =>
      if start < start + rel ∧ start + rel < nominal then start + rel
      else findBoundary t start nominal ms
    | none => findBoundary t start nominal ms

/-- The section-boundary markers consulted by `_remove_boilerplate`. -/
def sectionEnds : List (List Char) :=
  [chars "\n\nFrom:", chars "\n\n---PART---", chars "\n\n\n\n"]

/-- `EmailCleaner._remove_boilerplate`: deletes `text[start:end]` where
`start` locates `'Company CSR Policy:'` and `end` is the resolved boundary
below the nominal `start + 600`. -/
def removeBoilerplate (t : List Char) : List Char :=
  match findFrom (chars "Company CSR Policy:") t with
  | none => t
  | some start =>
    let e := findBoundary t start (start + 600) sectionEnds
    t.take start ++ t.drop e

/-- Whether section marker `m` first occurs, relative to `start`, strictly
inside the 600-character window that bounds the boilerplate span. -/
def boundaryInWindow (t : List Char) (start : Nat) (m : List Char) : Bool :=
  match findFrom m (t.drop start) with
  | some rel => decide (0 < rel) && decide (rel < 600)
  | none => false

/-- `line.strip().startswith('>')`. -/
def lineIsQuote (l : List Char) : Bool :=
  match stripL l with
  | '>' :: _ => true
  | _ => false

/-- The lazy tail `.*?(?=\n\n|\Z)` of the divider-block patterns: consume the
shortest span whose following suffix starts with a blank line or is empty. -/
def lazyScanToBlank : List Char → List Char
  | [] => []
  | '\n' :: '\n' :: r => '\n' :: '\n' :: r
  | _ :: cs => lazyScanToBlank cs

/-- A match attempt of `\n*-+\s*phrase\s*-+.*?(?=\n\n|\Z)` (DOTALL,
IGNORECASE) at the current position, returning the suffix after the match.
Each run is taken maximal: shorter choices leave a character the next
pattern element cannot match, so backtracking never accepts them. -/
def matchDivider (phrase : List Char) (t : List Char) : Option (List Char) :=
  let a := t.dropWhile (· = '\n')
  match a with
  | '-' :: _ =>
    let b := (a.dropWhile (· = '-')).dropWhile isPyWs
    if ciPrefix phrase b then
      let d := (b.drop phrase.length).dropWhile isPyWs
      match d with
      | '-' :: _ => some (lazyScanToBlank (d.dropWhile (· = '-')))
      | _ => none
    else none
  | _ => none

/-- `re.sub` scan for the divider-block patterns, fuel-bounded: a match is
deleted and scanning resumes after it. -/
def subDivider (phrase : List Char) : Nat → List Char → List Char
  | _, [] => []
  | 0, t => t
  | fuel + 1, c :: cs =>
    match matchDivider phrase (c :: cs) with
    | some rest => subDivider phrase fuel rest
    | none => c :: subDivider phrase fuel cs

/-- The `except` branch of `_remove_quoted_replies`: drop `>`-quoted lines,
then delete `Original Message` and `Forwarded Message` divider blocks. -/
def fallbackQuoted (t : List Char) : List Char :=
  let t₁ := joinNL ((splitNL t).filter (fun l => !lineIsQuote l))
  let t₂ := subDivider (chars "original message") t₁.length t₁
  subDivider (chars "forwarded message") t₂.length t₂

/-- `EmailCleaner._remove_quoted_replies`: the `quotequail` path returns its
result stripped; any failure there selects the heuristic fallback. -/
def removeQuotedReplies (E : Ext) (t : List Char) : List Char :=
  match E.unwrap t with
  | some u => stripL u
  | none => fallbackQuoted t

/-- `EmailCleaner._add_attachment_placeholders`: returns the text as-is. -/
def addAttachmentPlaceholders (t : List Char) (_info : Option MessageInfo) : List Char :=
  t

/-- `'\n'.join(line.rstrip() for line in text.split('\n'))`. -/
def rstripLines (t : List Char) : List Char :=
  joinNL ((splitNL t).map rstripL)

/-- `EmailCleaner._normalize_whitespace`: collapse `[ \t]+` runs, cap newline
runs at 2, rstrip every line, strip the document. -/
def normalizeWhitespace (t : List Char) : List Char :=
  stripL (rstripLines (capRunsNL 2 0 (collapseRuns isHT false t)))

/-- Python `round(q, 2)` on the exact rational model of the float
computation: round half to even at two decimals. -/
def roundHalfToEven (q : ℚ) : ℤ :=
  if q - (⌊q⌋ : ℚ) = 1 / 2 then
    if ⌊q⌋ % 2 = 0 then ⌊q⌋ else ⌊q⌋ + 1
  else ⌊q + 1 / 2⌋

/-- `round(·, 2)` at two decimal places. -/
def pyRound2 (q : ℚ) : ℚ :=
  (roundHalfToEven (q * 100) : ℚ) / 100

/-- The `stats` dictionary of a cleaning result. -/
structure CleanStats where
  originalBytes : Nat
  cleanBytes : Nat
  reductionPercent : ℚ
deriving DecidableEq

/-- The dictionary returned by `EmailCleaner.clean`. -/
structure CleanResult where
  bodyClean : List Char
  stats : CleanStats
deriving DecidableEq

/-- The level-gated text pipeline of `EmailCleaner.clean` (steps 1-5). -/
def cleanBody (E : Ext) (level : Level) (payload : List Char) (messageInfo : Option MessageInfo) : List Char :=
  let t₁ := extractText E payload
  let t₂ := minimalClean t₁
  let t₃ :=
    if level = Level.standard ∨ level = Level.aggressive then
      removeBoilerplate (removeSignatures t₂)
    else t₂
  let t₄ :=
    if level = Level.aggressive then
      addAttachmentPlaceholders (removeQuotedReplies E t₃) messageInfo
    else t₃
  normalizeWhitespace t₄

/-- `EmailCleaner.clean`: the cleaned body plus the size statistics. -/
def clean (E : Ext) (level : Level) (payload : List Char) (messageInfo : Option MessageInfo) : CleanResult :=
  { bodyClean := cleanBody E level payload messageInfo
    stats :=
      { originalBytes := payload.length
        cleanBytes := (cleanBody E level payload messageInfo).length
        reductionPercent :=
          pyRound2 (if 0 < payload.length then
            ((payload.length : ℚ) - ((cleanBody E level payload messageInfo).length : ℚ)) /
              (payload.length : ℚ) * 100
          else 0) } }

/-- `'\n'.join(lines[-10:])` for a payload with more than 10 lines. -/
def lastTenLines (e : List Char) : List Char :=
  let lines := splitNL e
  joinNL (lines.drop (lines.length - 10))

/-- `re.sub(r'\s+', ' ', footer).strip()`. -/
def normalizeFooter (footer : List Char) : List Char :=
  stripL (collapseRuns isPyWs false footer)

/-- The footer candidate contributed by one payload in
`build_signature_database`: payloads of at most 10 lines, and normalized
candidates of at most 50 characters, contribute nothing. -/
def footerCandidate (e : List Char) : Option (List Char) :=
  let lines := splitNL e
  if 10 < lines.length then
    let norm := normalizeFooter (lastTenLines e)
    if 50 < norm.length then some norm else none
  else none

/-- `EmailCleaner.build_signature_database`, returning `len(self.signature_db)`.
The `md5` content hash of the normalized candidate is modelled as an
injective hash, i.e. counting is keyed by the normalized candidate itself;
since distinct hashes have distinct normalized candidates and hence distinct
representative footers, the stored set has exactly one member per qualifying
hash, so the returned size equals the number of normalized candidates
occurring at least `minOccurrences` times. -/
def buildSignatureDatabase (emails : List (List Char)) (minOccurrences : Nat) : Nat :=
  let cands := emails.filterMap footerCandidate
  ((cands.dedup).filter (fun k => minOccurrences ≤ cands.count k)).length

/-- The UTF-8 encoded size of a string, summed over its code points (what
`len(payload.encode())` would measure, as opposed to `len(payload)`). -/
def utf8ByteLength (t : List Char) : Nat :=
  (t.map Char.utf8Size).sum

/-- An external environment in which `html2text` and `quotequail` raise on
every call and the soup extractor is the identity. -/
def extId : Ext :=
  ⟨fun _ => none, fun t => t, fun _ => none⟩

/-- An external environment whose `quotequail` path returns `" unwrapped "`. -/
def extUnwrapConst : Ext :=
  ⟨fun _ => none, fun t => t, fun _ => some (chars " unwrapped ")⟩

/-- Boilerplate test text: the disclaimer marker at 0, a part separator at
21 and a `From:` header at 38, both inside the nominal 600-character window. -/
def boilerText : List Char :=
  chars "Company CSR Policy: X\n\n---PART---\n\nmid\n\nFrom: x rest"

/-- Boilerplate test text with no section boundary inside the window. -/
def boilerTextNoEnd : List Char :=
  chars "Company CSR Policy: confidential"

/-- An 11-line payload whose last ten lines normalize to exactly 50
characters (9 four-character lines, one five-character line, 9 separators). -/
def sigPayload50 : List Char :=
  chars "top\nabcd\nabcd\nabcd\nabcd\nabcd\nabcd\nabcd\nabcd\nabcd\nabcde"

/-- An 11-line payload whose last ten lines normalize to 51 characters. -/
def sigPayload51 : List Char :=
  chars "top\nabcd\nabcd\nabcd\nabcd\nabcd\nabcd\nabcd\nabcd\nabcd\nabcdef"

/-! ### Normal-form predicates for the whitespace normalizer

Decidable invariants of normalized text, used to settle how
`_normalize_whitespace` behaves under iteration. -/

/-- No tab character occurs. -/
def noTab (t : List Char) : Bool :=
  t.all (fun c => c != '\t')

/-- No two adjacent characters are both in the `[ \t]` class. -/
def noDbl : List Char → Bool
  | c :: d :: rest => !(isHT c && isHT d) && noDbl (d :: rest)
  | _ => true

/-- No three consecutive newlines occur. -/
def no3NL : List Char → Bool
  | a :: b :: c :: rest => !(a == '\n' && b == '\n' && c == '\n') && no3NL (b :: c :: rest)
  | _ => true

/-- No line-whitespace character is immediately followed by a newline
(equivalently: every line is right-stripped, except possibly the last). -/
def noWsNL : List Char → Bool
  | c :: d :: rest => !(isLineWs c && d == '\n') && noWsNL (d :: rest)
  | _ => true

/-- The first character, if any, is not whitespace. -/
def headNotWs : List Char → Bool
  | [] => true
  | c :: _ => !isPyWs c

/-- The last character, if any, is not whitespace. -/
def lastNotWs : List Char → Bool
  | [] => true
  | [c] => !isPyWs c
  | _ :: c :: rest => lastNotWs (c :: rest)

/-- The text starts with a newline. -/
def startsNL : List Char → Bool
  | a :: _ => a == '\n'
  | _ => false

/-- The text starts with two newlines. -/
def startsNL2 : List Char → Bool
  | a :: b :: _ => a == '\n' && b == '\n'
  | _ => false

/-- The text starts with a space or tab. -/
def startsHT : List Char → Bool
  | c :: _ => isHT c
  | _ => false

/-! ## Helper lemmas -/

theorem pyRound2_zero : pyRound2 0 = 0 := by
  have h : roundHalfToEven 0 = 0 := by
    unfold roundHalfToEven
    norm_num
  unfold pyRound2
  norm_num [h]

theorem extractText_nil (E : Ext) : extractText E [] = [] :=
  rfl

theorem cleanBody_minimal (E : Ext) (p : List Char) (info : Option MessageInfo) :
    cleanBody E Level.minimal p info = normalizeWhitespace (minimalClean (extractText E p)) :=
  rfl

theorem cleanBody_standard (E : Ext) (p : List Char) (info : Option MessageInfo) :
    cleanBody E Level.standard p info =
      normalizeWhitespace (removeBoilerplate (removeSignatures (minimalClean (extractText E p)))) :=
  rfl

theorem cleanBody_aggressive (E : Ext) (p : List Char) (info : Option MessageInfo) :
    cleanBody E Level.aggressive p info =
      normalizeWhitespace (addAttachmentPlaceholders
        (removeQuotedReplies E (removeBoilerplate (removeSignatures (minimalClean (extractText E p)))))
        info) :=
  rfl

/-! ## Claims -/

/-- C10: part splitting and HTML conversion happen only for payloads passing
the `<html`/`<div`/`<p>` sniff; a payload failing it is returned verbatim by
text extraction (part-separator sentinels included), and when the cleaned
part list is empty the original payload is returned unchanged. -/
theorem claim_C10 :
    (∀ (E : Ext) (p : List Char), sniffHtml p = false → extractText E p = p) ∧
    (∀ p : List Char, assembleParts [] p = p) := by
  constructor
  · intro E p h
    unfold extractText
    simp [h]
  · intro p
    rfl

/-- C10 witness: a sniff-failing payload containing the part separator is
returned verbatim, separator not removed. -/
theorem claim_C10_witness :
    sniffHtml (chars "hello\n\n---PART---\n\nworld") = false ∧
    containsSeq partSep (chars "hello\n\n---PART---\n\nworld") = true ∧
    extractText extId (chars "hello\n\n---PART---\n\nworld") = chars "hello\n\n---PART---\n\nworld" :=
  ⟨by decide, by decide, claim_C10.1 extId (chars "hello\n\n---PART---\n\nworld") (by decide)⟩

/-- C2: no stage propagates a failure: a raising HTML converter is replaced
by the soup fallback on the image-rewritten part, a raising or unavailable
`quotequail` selects the heuristic fallback, the attachment annotator is a
pass-through for any (absent) metadata, and `clean` still yields a result
when every external call raises. -/
theorem claim_C2 :
    (∀ (soup : List Char → List Char) (uw : List Char → Option (List Char)) (part : List Char),
      handlePart ⟨fun _ => none, soup, uw⟩ part =
        if part.any (· = '<') && part.any (· = '>') then soup (replaceInlineImages part)
        else part) ∧
    (∀ (conv : List Char → Option (List Char)) (soup : List Char → List Char) (t : List Char),
      removeQuotedReplies ⟨conv, soup, fun _ => none⟩ t = fallbackQuoted t) ∧
    (∀ (t : List Char) (info : Option MessageInfo), addAttachmentPlaceholders t info = t) ∧
    (∀ (soup : List Char → List Char) (level : Level) (p : List Char) (info : Option MessageInfo),
      (clean ⟨fun _ => none, soup, fun _ => none⟩ level p info).stats.originalBytes = p.length) := by
  refine ⟨?_, ?_, ?_, ?_⟩
  · intro soup uw part
    unfold handlePart
    split <;> rfl
  · intro conv soup t
    rfl
  · intro t info
    rfl
  · intro soup level p info
    rfl

/-- C3 counterexample: on the single CJK character `中` the reported
`original_bytes` is the character count 1, not the encoded length 3. -/
theorem claim_C3_cex :
    (clean extId Level.minimal (chars "中") none).stats.originalBytes = 1 ∧
    (clean extId Level.minimal (chars "中") none).stats.cleanBytes = 1 ∧
    utf8ByteLength (chars "中") = 3 ∧
    (clean extId Level.minimal (chars "中") none).stats.originalBytes ≠ utf8ByteLength (chars "中") := by
  refine ⟨rfl, rfl, rfl, ?_⟩
  decide

/-- C3 amended: `original_bytes` and `clean_bytes` are the code-point counts
(Python `len`) of the input payload and of the cleaned body — equal to the
encoded byte length only for single-byte text. -/
theorem claim_C3 :
    ∀ (E : Ext) (level : Level) (p : List Char) (info : Option MessageInfo),
      (clean E level p info).stats.originalBytes = p.length ∧
      (clean E level p info).stats.cleanBytes = (clean E level p info).bodyClean.length := by
  intro E level p info
  exact ⟨rfl, rfl⟩

/-- C8 counterexample: a payload that contains the inline-image tag but none
of the HTML sniff substrings is returned verbatim by text extraction — the
tag is not rewritten into a placeholder. -/
theorem claim_C8_cex :
    containsSeq (chars "<img src=\"cid:abc123\">") (chars "see <img src=\"cid:abc123\"> bye") = true ∧
    extractText extId (chars "see <img src=\"cid:abc123\"> bye") = chars "see <img src=\"cid:abc123\"> bye" ∧
    containsSeq (chars "[Inline image: abc123]")
      (extractText extId (chars "see <img src=\"cid:abc123\"> bye")) = false := by
  refine ⟨by decide, by decide, by decide⟩

/-- C8 amended: for a payload passing the HTML sniff, the `cid:` image tag is
rewritten to the bracketed placeholder carrying the content id before the
part is handed to the HTML-to-Markdown converter (or, on its failure, to the
soup fallback); the rewrite itself maps the tag to `[Inline image: abc123]`. -/
theorem claim_C8 :
    (∀ (conv : List Char → Option (List Char)) (soup : List Char → List Char)
        (uw : List Char → Option (List Char)),
      extractText ⟨conv, soup, uw⟩ (chars "<div><img src=\"cid:abc123\"></div>") =
        (conv (chars "<div>[Inline image: abc123]</div>")).getD
          (soup (chars "<div>[Inline image: abc123]</div>"))) ∧
    replaceInlineImages (chars "<img src=\"cid:abc123\">") = chars "[Inline image: abc123]" := by
  constructor
  · intro conv soup uw
    have h1 : sniffHtml (chars "<div><img src=\"cid:abc123\"></div>") = true := by decide
    have h2 : ((splitOnSeq partSep (chars "<div><img src=\"cid:abc123\"></div>")).map stripL).filter
        (fun x => !x.isEmpty) = [chars "<div><img src=\"cid:abc123\"></div>"] := by decide
    have h3 : replaceInlineImages (chars "<div><img src=\"cid:abc123\"></div>") =
        chars "<div>[Inline image: abc123]</div>" := by decide
    have h4 : ((chars "<div><img src=\"cid:abc123\"></div>").any (· = '<') &&
        (chars "<div><img src=\"cid:abc123\"></div>").any (· = '>')) = true := by decide
    unfold extractText
    rw [h1, if_pos rfl, h2]
    show assembleParts [handlePart ⟨conv, soup, uw⟩ (chars "<div><img src=\"cid:abc123\"></div>")] _ = _
    unfold handlePart
    rw [h4, if_pos rfl, h3]
    rfl
  · decide

/-- C1: the reported `reduction_percent` is the claimed ratio rounded to two
decimals whenever `original_bytes` is positive, is 0 when `original_bytes`
is 0, and the empty payload produces all-zero statistics instead of a
division error.  (The hypothesis pins the modelled `quotequail` call on the
empty text: it raises, or returns something that strips to empty, as the
library does.) -/
theorem claim_C1 (E : Ext) (level : Level) (p : List Char) (info : Option MessageInfo)
    (hq : ∀ u, E.unwrap [] = some u → stripL u = []) :
    (0 < (clean E level p info).stats.originalBytes →
      (clean E level p info).stats.reductionPercent =
        pyRound2 ((((clean E level p info).stats.originalBytes : ℚ) -
          ((clean E level p info).stats.cleanBytes : ℚ)) /
          ((clean E level p info).stats.originalBytes : ℚ) * 100)) ∧
    ((clean E level p info).stats.originalBytes = 0 →
      (clean E level p info).stats.reductionPercent = 0) ∧
    (clean E level [] info).stats = ⟨0, 0, 0⟩ := by
  have hstats : ∀ q : List Char, (clean E level q info).stats.reductionPercent =
      pyRound2 (if 0 < q.length then
        ((q.length : ℚ) - ((clean E level q info).stats.cleanBytes : ℚ)) / (q.length : ℚ) * 100
      else 0) := by
    intro q
    rfl
  refine ⟨?_, ?_, ?_⟩
  · intro h
    have h' : 0 < p.length := h
    rw [hstats p, if_pos h']
    rfl
  · intro h
    have h0 : p.length = 0 := h
    rw [hstats p, h0]
    simp [pyRound2_zero]
  · have hbody : cleanBody E level [] info = [] := by
      rcases level with _ | _ | _
      · rw [cleanBody_minimal, extractText_nil]
        decide
      · rw [cleanBody_standard, extractText_nil]
        decide
      · rw [cleanBody_aggressive, extractText_nil]
        have h3 : removeBoilerplate (removeSignatures (minimalClean [])) = [] := by decide
        rw [h3]
        show normalizeWhitespace (removeQuotedReplies E []) = []
        unfold removeQuotedReplies
        rcases hu : E.unwrap [] with _ | u
        · decide
        · show normalizeWhitespace (stripL u) = []
          rw [hq u hu]
          decide
    have hlen : (clean E level [] info).stats.cleanBytes = 0 := by
      show (cleanBody E level [] info).length = 0
      rw [hbody]
      rfl
    have hred : (clean E level [] info).stats.reductionPercent = 0 := by
      rw [hstats []]
      simp [pyRound2_zero]
    show CleanStats.mk ([] : List Char).length (cleanBody E level [] info).length _ = ⟨0, 0, 0⟩
    rw [hbody]
    exact congrArg (CleanStats.mk 0 0) hred

/-- C1 witness: a concrete environment whose `quotequail` model raises on
the empty text, a non-empty payload, and the discharged statistics facts. -/
theorem claim_C1_witness :
    (clean extId Level.aggressive (chars "abc") none).stats.reductionPercent =
      pyRound2 ((((clean extId Level.aggressive (chars "abc") none).stats.originalBytes : ℚ) -
        ((clean extId Level.aggressive (chars "abc") none).stats.cleanBytes : ℚ)) /
        ((clean extId Level.aggressive (chars "abc") none).stats.originalBytes : ℚ) * 100) ∧
    (clean extId Level.aggressive [] none).stats = ⟨0, 0, 0⟩ :=
  ⟨(claim_C1 extId Level.aggressive (chars "abc") none (fun u h => Option.noConfusion h)).1
    (by decide),
   (claim_C1 extId Level.aggressive (chars "abc") none (fun u h => Option.noConfusion h)).2.2⟩

/-- C4 counterexample: in `boilerText`, the nearest section boundary after
the disclaimer marker is the part separator at 21, but the deletion span is
truncated at the `From:` header at 38, because the markers are consulted in
a fixed order with `From:` first — not at the nearest occurrence. -/
theorem claim_C4_cex :
    findFrom (chars "Company CSR Policy:") boilerText = some 0 ∧
    findFrom (chars "\n\n---PART---") boilerText = some 21 ∧
    findFrom (chars "\n\nFrom:") boilerText = some 38 ∧
    removeBoilerplate boilerText = boilerText.drop 38 ∧
    removeBoilerplate boilerText ≠ boilerText.drop 21 := by
  refine ⟨by decide, by decide, by decide, by decide, by decide⟩

/-- Unfolding equation of the boundary scan at a marker whose first
occurrence after `start` is at relative position `rel`. -/
theorem findBoundary_cons_found (t : List Char) (start nominal rel : Nat) (m : List Char)
    (ms : List (List Char)) (h : findFrom m (t.drop start) = some rel) :
    findBoundary t start nominal (m :: ms) =
      if start < start + rel ∧ start + rel < nominal then start + rel
      else findBoundary t start nominal ms := by
  simp only [findBoundary, h]

/-- Unfolding equation of the boundary scan at an absent marker. -/
theorem findBoundary_cons_missing (t : List Char) (start nominal : Nat) (m : List Char)
    (ms : List (List Char)) (h : findFrom m (t.drop start) = none) :
    findBoundary t start nominal (m :: ms) = findBoundary t start nominal ms := by
  simp only [findBoundary, h]

/-- A span-end scan in which no marker hits the window resolves to the
nominal end. -/
theorem findBoundary_of_miss (t : List Char) (i : Nat) :
    ∀ ms : List (List Char), (∀ m ∈ ms, boundaryInWindow t i m = false) →
      findBoundary t i (i + 600) ms = i + 600 := by
  intro ms
  induction ms with
  | nil => intro _; rfl
  | cons m ms ih =>
    intro h
    have hm := h m (List.mem_cons_self m ms)
    unfold boundaryInWindow at hm
    rcases hf : findFrom m (t.drop i) with _ | rel
    · rw [findBoundary_cons_missing t i (i + 600) m ms hf]
      exact ih fun x hx => h x (List.mem_cons_of_mem m hx)
    · rw [hf] at hm
      have hcon : ¬(i < i + rel ∧ i + rel < i + 600) := by
        intro ⟨h1, h2⟩
        have h1' : 0 < rel := by omega
        have h2' : rel < 600 := by omega
        simp [h1', h2'] at hm
      rw [findBoundary_cons_found t i (i + 600) rel m ms hf, if_neg hcon]
      exact ih fun x hx => h x (List.mem_cons_of_mem m hx)

/-- Unfolding equation of the boilerplate stripper when the marker occurs. -/
theorem removeBoilerplate_found (t : List Char) (i : Nat)
    (h : findFrom (chars "Company CSR Policy:") t = some i) :
    removeBoilerplate t = t.take i ++ t.drop (findBoundary t i (i + 600) sectionEnds) := by
  unfold removeBoilerplate
  rw [h]

/-- C4 amended: the deletion span starts at the disclaimer marker; its end is
resolved by consulting the section markers in the fixed order `From:` header,
part separator, blank-line run — the first marker whose first occurrence
after the span start lies strictly inside the 600-character window wins (so a
`From:` header in the window truncates the span exactly at its start, even
when another marker occurs nearer), and the nominal end `start + 600` is used
when no marker hits the window; text outside the span is retained. -/
theorem claim_C4 :
    (∀ t i rel, findFrom (chars "Company CSR Policy:") t = some i →
      findFrom (chars "\n\nFrom:") (t.drop i) = some rel → 0 < rel → rel < 600 →
      removeBoilerplate t = t.take i ++ t.drop (i + rel)) ∧
    (∀ t i, findFrom (chars "Company CSR Policy:") t = some i →
      (∀ m ∈ sectionEnds, boundaryInWindow t i m = false) →
      removeBoilerplate t = t.take i ++ t.drop (i + 600)) := by
  constructor
  · intro t i rel hcsr hfrom h1 h2
    rw [removeBoilerplate_found t i hcsr]
    have hb : findBoundary t i (i + 600) sectionEnds = i + rel := by
      unfold sectionEnds
      rw [findBoundary_cons_found t i (i + 600) rel _ _ hfrom]
      rw [if_pos ⟨by omega, by omega⟩]
    rw [hb]
  · intro t i hcsr hmiss
    rw [removeBoilerplate_found t i hcsr, findBoundary_of_miss t i sectionEnds hmiss]

/-- C4 witness: the two resolved span shapes at concrete inputs. -/
theorem claim_C4_witness :
    removeBoilerplate boilerText = boilerText.take 0 ++ boilerText.drop (0 + 38) ∧
    removeBoilerplate boilerTextNoEnd = boilerTextNoEnd.take 0 ++ boilerTextNoEnd.drop (0 + 600) :=
  ⟨claim_C4.1 boilerText 0 38 (by decide) (by decide) (by decide) (by decide),
   claim_C4.2 boilerTextNoEnd 0 (by decide) (by decide)⟩

/-- `l.take i` is a prefix of `l`. -/
theorem take_isPre (i : Nat) (l : List Char) : l.take i <+: l :=
  ⟨l.drop i, l.take_append_drop i⟩

/-- Truncation at a signature delimiter only discards a suffix. -/
theorem truncAt_isPre (pat t : List Char) : truncAt pat t <+: t := by
  unfold truncAt
  rcases findFrom pat t with _ | i
  · exact ⟨[], List.append_nil t⟩
  · exact take_isPre i t

/-- Truncation at an end-anchored signature phrase only discards a suffix. -/
theorem truncEndPhrase_isPre (phrase t : List Char) : truncEndPhrase phrase t <+: t := by
  unfold truncEndPhrase
  rcases findEndPhrase phrase t with _ | i
  · exact ⟨[], List.append_nil t⟩
  · exact take_isPre i t

/-- C5: signature removal applies the ordered markers in sequence, each
discarding everything from its match onward: whenever the `'\n-- \n'`
delimiter occurs (first occurrence at `i`), the result is a prefix of the
text truncated at `i`; and at `Standard` level the documented example drops
everything from the delimiter onward. -/
theorem claim_C5 :
    (∀ t i, findFrom (chars "\n-- \n") t = some i → removeSignatures t <+: t.take i) ∧
    (clean extId Level.standard (chars "Hello\nworld\n-- \nJohn Doe\nPhone: 555-1234") none).bodyClean =
      chars "Hello\nworld" := by
  constructor
  · intro t i h
    unfold removeSignatures
    have h1 : truncAt (chars "\n-- \n") t = t.take i := by
      unfold truncAt
      rw [h]
    rw [h1]
    exact (truncEndPhrase_isPre _ _).trans ((truncEndPhrase_isPre _ _).trans
      ((truncEndPhrase_isPre _ _).trans (truncEndPhrase_isPre _ _)))
  · show cleanBody extId Level.standard (chars "Hello\nworld\n-- \nJohn Doe\nPhone: 555-1234") none =
      chars "Hello\nworld"
    decide

/-- C5 witness: the delimiter occurs at position 11 of the example text and
the theorem applies there. -/
theorem claim_C5_witness :
    removeSignatures (chars "Hello\nworld\n-- \nJohn Doe\nPhone: 555-1234") <+:
      (chars "Hello\nworld\n-- \nJohn Doe\nPhone: 555-1234").take 11 :=
  claim_C5.1 (chars "Hello\nworld\n-- \nJohn Doe\nPhone: 555-1234") 11 (by decide)

/-- C6: quoted-reply removal delegates to the unwrapping routine and strips
its result; if that routine is unavailable or raises, the fallback (drop
`>`-quoted lines, then delete the divider blocks) is used; and at
`Aggressive` level the documented example keeps `Hi there` and drops both
quoted lines. -/
theorem claim_C6 :
    (∀ (E : Ext) (t u : List Char), E.unwrap t = some u →
      removeQuotedReplies E t = stripL u) ∧
    (∀ (E : Ext) (t : List Char), E.unwrap t = none →
      removeQuotedReplies E t = fallbackQuoted t) ∧
    (clean extId Level.aggressive
      (chars "Hi there\n> old message line 1\n> old message line 2") none).bodyClean =
      chars "Hi there" := by
  refine ⟨?_, ?_, ?_⟩
  · intro E t u h
    unfold removeQuotedReplies
    rw [h]
  · intro E t h
    unfold removeQuotedReplies
    rw [h]
  · show cleanBody extId Level.aggressive
      (chars "Hi there\n> old message line 1\n> old message line 2") none = chars "Hi there"
    decide

/-- C6 witness: both paths of the delegation at concrete environments. -/
theorem claim_C6_witness :
    removeQuotedReplies extUnwrapConst (chars "any text") = stripL (chars " unwrapped ") ∧
    removeQuotedReplies extId (chars "Hi\n> q") = fallbackQuoted (chars "Hi\n> q") :=
  ⟨claim_C6.1 extUnwrapConst (chars "any text") (chars " unwrapped ") rfl,
   claim_C6.2.1 extId (chars "Hi\n> q") rfl⟩

/-- C9 counterexample: 150 payloads sharing an identical 10-line footer
whose normalized form has exactly 50 characters yield a corpus of size 0,
not 1 — a candidate of exactly 50 characters is discarded (`> 50`), though
it is not "shorter than 50 characters". -/
theorem claim_C9_cex :
    (splitNL sigPayload50).length = 11 ∧
    (normalizeFooter (lastTenLines sigPayload50)).length = 50 ∧
    buildSignatureDatabase (List.replicate 150 sigPayload50) 100 = 0 ∧
    buildSignatureDatabase (List.replicate 150 sigPayload50) 100 ≠ 1 := by
  refine ⟨by decide, by decide, by decide, by decide⟩

/-- Payloads of at most 10 lines contribute no footer candidate. -/
theorem footerCandidate_of_few_lines (e : List Char) (h : ¬10 < (splitNL e).length) :
    footerCandidate e = none := by
  simp only [footerCandidate]
  rw [if_neg h]

set_option maxRecDepth 16384 in
/-- C9 amended: corpus analysis considers exactly the payloads with more than
10 lines and discards normalized candidates of 50 characters **or fewer**
(strictly-greater-than-50 test); with that boundary, 150 payloads sharing an
identical normalized footer longer than 50 characters and threshold 100
yield a corpus of size 1. -/
theorem claim_C9 :
    buildSignatureDatabase (List.replicate 150 sigPayload51) 100 = 1 ∧
    (∀ (emails : List (List Char)) (minOcc : Nat),
      buildSignatureDatabase emails minOcc =
        buildSignatureDatabase (emails.filter (fun e => 10 < (splitNL e).length)) minOcc) ∧
    (∀ e : List Char, (normalizeFooter (lastTenLines e)).length ≤ 50 → footerCandidate e = none) := by
  refine ⟨by decide, ?_, ?_⟩
  · intro emails minOcc
    have hc : ∀ es : List (List Char),
        es.filterMap footerCandidate =
          (es.filter (fun e => 10 < (splitNL e).length)).filterMap footerCandidate := by
      intro es
      induction es with
      | nil => rfl
      | cons e es ih =>
        by_cases hp : 10 < (splitNL e).length
        · simp [List.filterMap_cons, List.filter_cons, hp, ih]
        · simp [List.filterMap_cons, List.filter_cons, hp, ih,
            footerCandidate_of_few_lines e hp]
    unfold buildSignatureDatabase
    rw [hc emails]
  · intro e h
    simp only [footerCandidate]
    by_cases hl : 10 < (splitNL e).length
    · rw [if_pos hl, if_neg (by omega)]
    · rw [if_neg hl]

/-- C9 witness: a two-line payload's candidate is discarded. -/
theorem claim_C9_witness : footerCandidate (chars "a\nb") = none :=
  claim_C9.2.2 (chars "a\nb") (by decide)

/-! ## Whitespace-normalizer lemmas (for C7) -/

theorem andE {a b : Bool} (h : (a && b) = true) : a = true ∧ b = true := by
  simp at h
  exact h

theorem noDbl_tail {c : Char} {cs : List Char} (h : noDbl (c :: cs) = true) : noDbl cs = true := by
  cases cs with
  | nil => rfl
  | cons d ds =>
    rw [show noDbl (c :: d :: ds) = (!(isHT c && isHT d) && noDbl (d :: ds)) from rfl] at h
    exact (andE h).2

theorem noWsNL_tail {c : Char} {cs : List Char} (h : noWsNL (c :: cs) = true) : noWsNL cs = true := by
  cases cs with
  | nil => rfl
  | cons d ds =>
    rw [show noWsNL (c :: d :: ds) = (!(isLineWs c && d == '\n') && noWsNL (d :: ds)) from rfl] at h
    exact (andE h).2

theorem no3NL_tail {c : Char} {cs : List Char} (h : no3NL (c :: cs) = true) : no3NL cs = true := by
  cases cs with
  | nil => rfl
  | cons d ds =>
    cases ds with
    | nil => rfl
    | cons e es =>
      rw [show no3NL (c :: d :: e :: es) =
        (!(c == '\n' && d == '\n' && e == '\n') && no3NL (d :: e :: es)) from rfl] at h
      exact (andE h).2

theorem noTab_tail {c : Char} {cs : List Char} (h : noTab (c :: cs) = true) : noTab cs = true := by
  simp only [noTab, List.all_cons, Bool.and_eq_true] at h
  exact h.2

theorem lastNotWs_cons_of_ne {c : Char} {cs : List Char} (h : cs ≠ []) :
    lastNotWs (c :: cs) = lastNotWs cs := by
  cases cs with
  | nil => exact absurd rfl h
  | cons d ds => rfl

theorem collapse_skip (cs : List Char) (h : startsHT cs = false) :
    collapseRuns isHT true cs = collapseRuns isHT false cs := by
  cases cs with
  | nil => rfl
  | cons d ds =>
    have hd : isHT d = false := h
    simp [collapseRuns, hd]

theorem collapse_noop (t : List Char) (h1 : noTab t = true) (h2 : noDbl t = true) :
    collapseRuns isHT false t = t := by
  induction t with
  | nil => rfl
  | cons c cs ih =>
    have h1' : noTab cs = true := noTab_tail h1
    have h2' : noDbl cs = true := noDbl_tail h2
    cases hc : isHT c with
    | false =>
      simp only [collapseRuns, hc]
      rw [if_neg (by simp), ih h1' h2']
    | true =>
      have hct : (c != '\t') = true := by
        simp only [noTab, List.all_cons, Bool.and_eq_true] at h1
        exact h1.1
      have hcsp : c = ' ' := by
        have := hc
        simp only [isHT, Bool.or_eq_true, decide_eq_true_eq] at this
        rcases this with h | h
        · exact h
        · rw [h] at hct
          simp at hct
      have hstart : startsHT cs = false := by
        cases cs with
        | nil => rfl
        | cons d ds =>
          rw [show noDbl (c :: d :: ds) = (!(isHT c && isHT d) && noDbl (d :: ds)) from rfl] at h2
          have := (andE h2).1
          rw [hc] at this
          simpa using this
      subst hcsp
      simp only [collapseRuns]
      rw [if_pos (by simp [isHT]), if_neg (by simp), collapse_skip cs hstart, ih h1' h2']

theorem capRuns_cons_nl (cap n : Nat) (cs : List Char) (h : ¬cap ≤ n) :
    capRunsNL cap n ('\n' :: cs) = '\n' :: capRunsNL cap (n + 1) cs := by
  simp [capRunsNL, h]

theorem capRuns_cons_nl_drop (cap n : Nat) (cs : List Char) (h : cap ≤ n) :
    capRunsNL cap n ('\n' :: cs) = capRunsNL cap n cs := by
  simp [capRunsNL, h]

theorem capRuns_cons_other (cap n : Nat) (c : Char) (cs : List Char) (h : ¬c = '\n') :
    capRunsNL cap n (c :: cs) = c :: capRunsNL cap 0 cs := by
  simp [capRunsNL, h]

theorem cap_noop (t : List Char) (h3 : no3NL t = true) :
    capRunsNL 2 0 t = t ∧
    (startsNL2 t = false → capRunsNL 2 1 t = t) ∧
    (startsNL t = false → capRunsNL 2 2 t = t) := by
  induction t with
  | nil => exact ⟨rfl, fun _ => rfl, fun _ => rfl⟩
  | cons c cs ih =>
    obtain ⟨ih0, ih1, ih2⟩ := ih (no3NL_tail h3)
    by_cases hc : c = '\n'
    · subst hc
      have hs2 : startsNL2 cs = false := by
        cases cs with
        | nil => rfl
        | cons d ds =>
          cases ds with
          | nil => rfl
          | cons e es =>
            rw [show no3NL ('\n' :: d :: e :: es) =
              (!('\n' == '\n' && d == '\n' && e == '\n') && no3NL (d :: e :: es)) from rfl] at h3
            have h' : ¬d = '\n' ∨ ¬e = '\n' := by simpa using (andE h3).1
            show (d == '\n' && e == '\n') = false
            rcases h' with h' | h'
            · simp [h']
            · simp [h']
      refine ⟨?_, ?_, ?_⟩
      · rw [capRuns_cons_nl 2 0 cs (by omega), ih1 hs2]
      · intro hs
        have hsn : startsNL cs = false := by
          cases cs with
          | nil => rfl
          | cons d ds =>
            show (d == '\n') = false
            have : ('\n' == '\n' && d == '\n') = false := hs
            simpa using this
        rw [capRuns_cons_nl 2 1 cs (by omega), ih2 hsn]
      · intro hs
        exact absurd hs (by simp [startsNL])
    · refine ⟨?_, fun _ => ?_, fun _ => ?_⟩ <;>
        rw [capRuns_cons_other 2 _ c cs hc, ih0]

theorem dropWhile_head_not (p : Char → Bool) (x : List Char) :
    x.dropWhile p = [] ∨ ∃ d ds, x.dropWhile p = d :: ds ∧ p d = false := by
  induction x with
  | nil => exact Or.inl rfl
  | cons c cs ih =>
    by_cases hc : p c = true
    · simpa [List.dropWhile, hc] using ih
    · have hc' : p c = false := by simpa using hc
      exact Or.inr ⟨c, cs, by simp [List.dropWhile, hc'], hc'⟩

theorem dropWhile_suffix_decomp (p : Char → Bool) (x : List Char) :
    ∃ u, x = u ++ x.dropWhile p := by
  induction x with
  | nil => exact ⟨[], rfl⟩
  | cons c cs ih =>
    by_cases hc : p c = true
    · obtain ⟨u, hu⟩ := ih
      exact ⟨c :: u, by simp [List.dropWhile, hc]; exact hu⟩
    · exact ⟨[], by simp [List.dropWhile, hc]⟩

theorem dropWhile_eq_self_of_headNot (x : List Char) (h : headNotWs x = true) :
    x.dropWhile isPyWs = x := by
  cases x with
  | nil => rfl
  | cons c cs =>
    have : isPyWs c = false := by simpa [headNotWs] using h
    simp [List.dropWhile, this]

theorem headNotWs_dropWhile (x : List Char) : headNotWs (x.dropWhile isPyWs) = true := by
  rcases dropWhile_head_not isPyWs x with h | ⟨d, ds, h, hd⟩
  · rw [h]; rfl
  · rw [h]
    simpa [headNotWs] using hd

theorem headNotWs_append (xs ys : List Char) (h : xs ≠ []) :
    headNotWs (xs ++ ys) = headNotWs xs := by
  cases xs with
  | nil => exact absurd rfl h
  | cons c cs => rfl

theorem lastNotWs_rev (t : List Char) : lastNotWs t = headNotWs t.reverse := by
  induction t with
  | nil => rfl
  | cons c cs ih =>
    cases cs with
    | nil => simp [lastNotWs, headNotWs]
    | cons d ds =>
      rw [lastNotWs_cons_of_ne (by simp), ih]
      have hrev : (c :: d :: ds).reverse = (d :: ds).reverse ++ [c] := by simp
      rw [hrev, headNotWs_append _ _ (by simp)]

theorem rstripL_eq_self (t : List Char) (h : lastNotWs t = true) : rstripL t = t := by
  rw [lastNotWs_rev] at h
  unfold rstripL
  rw [dropWhile_eq_self_of_headNot _ h, List.reverse_reverse]

theorem lstripL_eq_self (t : List Char) (h : headNotWs t = true) : lstripL t = t :=
  dropWhile_eq_self_of_headNot t h

theorem rstrip_lastNotWs (l : List Char) : lastNotWs (rstripL l) = true := by
  unfold rstripL
  rw [lastNotWs_rev, List.reverse_reverse]
  exact headNotWs_dropWhile l.reverse

theorem rstrip_isPre (l : List Char) : rstripL l <+: l := by
  obtain ⟨u, hu⟩ := dropWhile_suffix_decomp isPyWs l.reverse
  refine ⟨u.reverse, ?_⟩
  unfold rstripL
  calc (l.reverse.dropWhile isPyWs).reverse ++ u.reverse
      = (u ++ l.reverse.dropWhile isPyWs).reverse := by simp
    _ = l := by rw [← hu, List.reverse_reverse]

theorem lastNotWs_of_rstrip_eq (l : List Char) (h : rstripL l = l) (hne : l ≠ []) :
    lastNotWs l = true := by
  rw [lastNotWs_rev]
  have hdw : l.reverse.dropWhile isPyWs = l.reverse := by
    have := congrArg List.reverse h
    rwa [rstripL, List.reverse_reverse] at this
  rcases hx : l.reverse with _ | ⟨x, xs⟩
  · exact absurd (by simpa using hx) hne
  · rw [hx] at hdw
    by_cases hpx : isPyWs x = true
    · exfalso
      rw [List.dropWhile_cons, if_pos hpx] at hdw
      have hlen : (xs.dropWhile isPyWs).length ≤ xs.length := (List.dropWhile_sublist isPyWs).length_le
      rw [hdw] at hlen
      simp at hlen
    · simpa [headNotWs] using hpx

theorem rstrip_cons (c : Char) (l : List Char) (h : rstripL l = l) (hne : l ≠ []) :
    rstripL (c :: l) = c :: l := by
  apply rstripL_eq_self
  rw [lastNotWs_cons_of_ne hne]
  exact lastNotWs_of_rstrip_eq l h hne

theorem splitNL_cons_nl (cs : List Char) : splitNL ('\n' :: cs) = [] :: splitNL cs := by
  simp [splitNL]

theorem splitNL_cons_other (c : Char) (cs : List Char) (hc : ¬c = '\n')
    (l : List Char) (ls : List (List Char)) (h : splitNL cs = l :: ls) :
    splitNL (c :: cs) = (c :: l) :: ls := by
  simp [splitNL, hc, h]

theorem splitNL_ne_nil (t : List Char) : splitNL t ≠ [] := by
  induction t with
  | nil => simp [splitNL]
  | cons c cs ih =>
    by_cases hc : c = '\n'
    · subst hc
      rw [splitNL_cons_nl]
      simp
    · rcases hcs : splitNL cs with _ | ⟨l, ls⟩
      · exact absurd hcs ih
      · rw [splitNL_cons_other c cs hc l ls hcs]
        simp

theorem joinNL_splitNL (t : List Char) : joinNL (splitNL t) = t := by
  induction t with
  | nil => rfl
  | cons c cs ih =>
    by_cases hc : c = '\n'
    · subst hc
      rw [splitNL_cons_nl]
      rcases hcs : splitNL cs with _ | ⟨l, ls⟩
      · exact absurd hcs (splitNL_ne_nil cs)
      · rw [hcs] at ih
        show joinNL ([] :: l :: ls) = '\n' :: cs
        rw [show joinNL ([] :: l :: ls) = [] ++ '\n' :: joinNL (l :: ls) from rfl]
        rw [List.nil_append, ih]
    · rcases hcs : splitNL cs with _ | ⟨l, ls⟩
      · exact absurd hcs (splitNL_ne_nil cs)
      · rw [splitNL_cons_other c cs hc l ls hcs]
        rw [hcs] at ih
        cases ls with
        | nil =>
          show c :: l = c :: cs
          rw [show joinNL [l] = l from rfl] at ih
          rw [ih]
        | cons l₂ ls₂ =>
          show (c :: l) ++ '\n' :: joinNL (l₂ :: ls₂) = c :: cs
          rw [List.cons_append]
          rw [show l ++ '\n' :: joinNL (l₂ :: ls₂) = joinNL (l :: l₂ :: ls₂) from rfl, ih]

theorem map_self {α : Type} (f : α → α) (l : List α) (h : ∀ a ∈ l, f a = a) :
    l.map f = l := by
  induction l with
  | nil => rfl
  | cons a as ih =>
    rw [List.map_cons, h a (List.mem_cons_self a as), ih fun x hx => h x (List.mem_cons_of_mem a hx)]

theorem isPyWs_false_of_not_lineWs (c : Char) (hc : ¬c = '\n') (hlw : isLineWs c = false) :
    isPyWs c = false := by
  cases hp : isPyWs c
  · rfl
  · exfalso
    unfold isLineWs at hlw
    rw [hp] at hlw
    simp at hlw
    exact hc hlw

theorem lines_rstripped : ∀ t : List Char, noWsNL t = true → lastNotWs t = true →
    ∀ l ∈ splitNL t, rstripL l = l := by
  intro t
  induction t with
  | nil =>
    intro _ _ l hlmem
    have : l = [] := by simpa [splitNL] using hlmem
    rw [this]
    rfl
  | cons c cs ih =>
    intro hw hl l hlmem
    by_cases hc : c = '\n'
    · subst hc
      rw [splitNL_cons_nl] at hlmem
      rcases List.mem_cons.mp hlmem with h | h
      · rw [h]; rfl
      · cases cs with
        | nil =>
          have : l = [] := by simpa [splitNL] using h
          rw [this]
          rfl
        | cons d ds =>
          exact ih (noWsNL_tail hw) (by rwa [lastNotWs_cons_of_ne (by simp)] at hl) l h
    · cases cs with
      | nil =>
        rw [splitNL_cons_other c [] hc [] [] rfl] at hlmem
        have : l = [c] := by simpa using hlmem
        rw [this]
        exact rstripL_eq_self [c] hl
      | cons d ds =>
        have hw' := noWsNL_tail hw
        have hl' : lastNotWs (d :: ds) = true := by
          rwa [lastNotWs_cons_of_ne (by simp)] at hl
        by_cases hd : d = '\n'
        · subst hd
          rw [splitNL_cons_other c _ hc [] (splitNL ds) (splitNL_cons_nl ds)] at hlmem
          rcases List.mem_cons.mp hlmem with h | h
          · rw [h]
            apply rstripL_eq_self
            have hclause : (isLineWs c && ('\n' == '\n')) = false := by
              rw [show noWsNL (c :: '\n' :: ds) =
                (!(isLineWs c && '\n' == '\n') && noWsNL ('\n' :: ds)) from rfl] at hw
              simpa using (andE hw).1
            have hlw : isLineWs c = false := by simpa using hclause
            simp [lastNotWs, isPyWs_false_of_not_lineWs c hc hlw]
          · exact ih hw' hl' l (by rw [splitNL_cons_nl]; exact List.mem_cons_of_mem _ h)
        · rcases hds : splitNL (d :: ds) with _ | ⟨m, ms⟩
          · exact absurd hds (splitNL_ne_nil _)
          rw [splitNL_cons_other c _ hc m ms hds] at hlmem
          rcases List.mem_cons.mp hlmem with h | h
          · rw [h]
            have hm_shape : ∃ m2, m = d :: m2 := by
              rcases hds2 : splitNL ds with _ | ⟨m2, ms2⟩
              · exact absurd hds2 (splitNL_ne_nil _)
              rw [splitNL_cons_other d ds hd m2 ms2 hds2] at hds
              exact ⟨m2, (List.cons_eq_cons.mp hds).1.symm⟩
            obtain ⟨m2, hm2⟩ := hm_shape
            have hmne : m ≠ [] := by rw [hm2]; simp
            have hrst : rstripL m = m :=
              ih hw' hl' m (by rw [hds]; exact List.mem_cons_self _ _)
            exact rstrip_cons c m hrst hmne
          · exact ih hw' hl' l (by rw [hds]; exact List.mem_cons_of_mem _ h)

theorem rstripLines_noop (t : List Char) (hw : noWsNL t = true) (hl : lastNotWs t = true) :
    rstripLines t = t := by
  unfold rstripLines
  rw [map_self rstripL (splitNL t) (lines_rstripped t hw hl), joinNL_splitNL]

theorem normalize_noop (t : List Char) (h1 : noTab t = true) (h2 : noDbl t = true)
    (h3 : no3NL t = true) (h4 : noWsNL t = true) (h5 : lastNotWs t = true)
    (h6 : headNotWs t = true) :
    normalizeWhitespace t = t := by
  unfold normalizeWhitespace
  rw [collapse_noop t h1 h2, (cap_noop t h3).1, rstripLines_noop t h4 h5]
  unfold stripL
  rw [rstripL_eq_self t h5, lstripL_eq_self t h6]

theorem collapseRuns_cons_ht_true (c : Char) (cs : List Char) (h : isHT c = true) :
    collapseRuns isHT true (c :: cs) = collapseRuns isHT true cs := by
  simp [collapseRuns, h]

theorem collapseRuns_cons_ht_false (c : Char) (cs : List Char) (h : isHT c = true) :
    collapseRuns isHT false (c :: cs) = ' ' :: collapseRuns isHT true cs := by
  simp [collapseRuns, h]

theorem collapseRuns_cons_not (b : Bool) (c : Char) (cs : List Char) (h : isHT c = false) :
    collapseRuns isHT b (c :: cs) = c :: collapseRuns isHT false cs := by
  simp [collapseRuns, h]

theorem collapse_noTab : ∀ (t : List Char) (b : Bool), noTab (collapseRuns isHT b t) = true := by
  intro t
  induction t with
  | nil => intro _; rfl
  | cons c cs ih =>
    intro b
    cases hc : isHT c with
    | true =>
      cases b with
      | true =>
        rw [collapseRuns_cons_ht_true c cs hc]
        exact ih true
      | false =>
        rw [collapseRuns_cons_ht_false c cs hc]
        simp only [noTab, List.all_cons, Bool.and_eq_true]
        exact ⟨by decide, ih true⟩
    | false =>
      rw [collapseRuns_cons_not b c cs hc]
      simp only [noTab, List.all_cons, Bool.and_eq_true]
      refine ⟨?_, ih false⟩
      have : ¬c = ' ' ∧ ¬c = '\t' := by simpa [isHT] using hc
      simp [this.2]

theorem collapse_true_startsHT : ∀ cs : List Char, startsHT (collapseRuns isHT true cs) = false := by
  intro cs
  induction cs with
  | nil => rfl
  | cons c cs ih =>
    cases hc : isHT c with
    | true =>
      rw [collapseRuns_cons_ht_true c cs hc]
      exact ih
    | false =>
      rw [collapseRuns_cons_not true c cs hc]
      simp [startsHT, hc]

theorem collapse_noDbl : ∀ (t : List Char) (b : Bool), noDbl (collapseRuns isHT b t) = true := by
  intro t
  induction t with
  | nil => intro _; rfl
  | cons c cs ih =>
    intro b
    cases hc : isHT c with
    | true =>
      cases b with
      | true =>
        rw [collapseRuns_cons_ht_true c cs hc]
        exact ih true
      | false =>
        rw [collapseRuns_cons_ht_false c cs hc]
        rcases hX : collapseRuns isHT true cs with _ | ⟨d, ds⟩
        · rfl
        · rw [show noDbl (' ' :: d :: ds) = (!(isHT ' ' && isHT d) && noDbl (d :: ds)) from rfl]
          have hd : isHT d = false := by
            have := collapse_true_startsHT cs
            rw [hX] at this
            exact this
          have hnd : noDbl (d :: ds) = true := by
            have := ih true
            rwa [hX] at this
          simp [hd, hnd]
    | false =>
      rw [collapseRuns_cons_not b c cs hc]
      rcases hX : collapseRuns isHT false cs with _ | ⟨d, ds⟩
      · rfl
      · rw [show noDbl (c :: d :: ds) = (!(isHT c && isHT d) && noDbl (d :: ds)) from rfl]
        have hnd : noDbl (d :: ds) = true := by
          have := ih false
          rwa [hX] at this
        simp [hc, hnd]

theorem cap_all (P : Char → Bool) : ∀ (t : List Char) (n : Nat), t.all P = true →
    (capRunsNL 2 n t).all P = true := by
  intro t
  induction t with
  | nil => intro _ _; rfl
  | cons c cs ih =>
    intro n h
    simp only [List.all_cons, Bool.and_eq_true] at h
    by_cases hc : c = '\n'
    · subst hc
      by_cases h2 : 2 ≤ n
      · rw [capRuns_cons_nl_drop 2 n cs h2]
        exact ih n h.2
      · rw [capRuns_cons_nl 2 n cs h2]
        simp only [List.all_cons, Bool.and_eq_true]
        exact ⟨h.1, ih (n + 1) h.2⟩
    · rw [capRuns_cons_other 2 n c cs hc]
      simp only [List.all_cons, Bool.and_eq_true]
      exact ⟨h.1, ih 0 h.2⟩

theorem cap2_head_not_nl : ∀ cs : List Char, startsNL (capRunsNL 2 2 cs) = false := by
  intro cs
  induction cs with
  | nil => rfl
  | cons c cs ih =>
    by_cases hc : c = '\n'
    · subst hc
      rw [capRuns_cons_nl_drop 2 2 cs (by omega)]
      exact ih
    · rw [capRuns_cons_other 2 2 c cs hc]
      simp [startsNL, hc]

theorem startsNL2_false_of_startsNL (X : List Char) (h : startsNL X = false) :
    startsNL2 X = false := by
  rcases X with _ | ⟨a, _ | ⟨b, r⟩⟩
  · rfl
  · rfl
  · have : (a == '\n') = false := h
    simp [startsNL2, this]

theorem cap1_not_startsNL2 : ∀ cs : List Char, startsNL2 (capRunsNL 2 1 cs) = false := by
  intro cs
  cases cs with
  | nil => rfl
  | cons c cs =>
    by_cases hc : c = '\n'
    · subst hc
      rw [capRuns_cons_nl 2 1 cs (by omega)]
      rcases hX : capRunsNL 2 2 cs with _ | ⟨d, ds⟩
      · rfl
      · have hd : (d == '\n') = false := by
          have := cap2_head_not_nl cs
          rwa [hX] at this
        simp [startsNL2, hd]
    · rw [capRuns_cons_other 2 1 c cs hc]
      rcases capRunsNL 2 0 cs with _ | ⟨d, ds⟩
      · rfl
      · simp [startsNL2, hc]

theorem no3NL_cons_not_nl (c : Char) (X : List Char) (hc : ¬c = '\n') (hX : no3NL X = true) :
    no3NL (c :: X) = true := by
  rcases X with _ | ⟨a, _ | ⟨b, r⟩⟩
  · rfl
  · rfl
  · rw [show no3NL (c :: a :: b :: r) =
      (!(c == '\n' && a == '\n' && b == '\n') && no3NL (a :: b :: r)) from rfl]
    simp [hc, hX]

theorem no3NL_cons_nl (X : List Char) (h2 : startsNL2 X = false) (hX : no3NL X = true) :
    no3NL ('\n' :: X) = true := by
  rcases X with _ | ⟨a, _ | ⟨b, r⟩⟩
  · rfl
  · rfl
  · rw [show no3NL ('\n' :: a :: b :: r) =
      (!('\n' == '\n' && a == '\n' && b == '\n') && no3NL (a :: b :: r)) from rfl]
    have : (a == '\n' && b == '\n') = false := h2
    simp only [hX, Bool.and_true]
    simp [this]

theorem cap_no3 : ∀ cs : List Char, no3NL (capRunsNL 2 0 cs) = true ∧
    no3NL (capRunsNL 2 1 cs) = true ∧ no3NL (capRunsNL 2 2 cs) = true := by
  intro cs
  induction cs with
  | nil => exact ⟨rfl, rfl, rfl⟩
  | cons c cs ih =>
    obtain ⟨ih0, ih1, ih2⟩ := ih
    by_cases hc : c = '\n'
    · subst hc
      refine ⟨?_, ?_, ?_⟩
      · rw [capRuns_cons_nl 2 0 cs (by omega)]
        exact no3NL_cons_nl _ (cap1_not_startsNL2 cs) ih1
      · rw [capRuns_cons_nl 2 1 cs (by omega)]
        exact no3NL_cons_nl _ (startsNL2_false_of_startsNL _ (cap2_head_not_nl cs)) ih2
      · rw [capRuns_cons_nl_drop 2 2 cs (by omega)]
        exact ih2
    · refine ⟨?_, ?_, ?_⟩ <;>
        rw [capRuns_cons_other 2 _ c cs hc] <;>
        exact no3NL_cons_not_nl c _ hc ih0

theorem noDbl_cons_not_ht (c : Char) (X : List Char) (hc : isHT c = false)
    (hX : noDbl X = true) : noDbl (c :: X) = true := by
  rcases X with _ | ⟨d, ds⟩
  · rfl
  · rw [show noDbl (c :: d :: ds) = (!(isHT c && isHT d) && noDbl (d :: ds)) from rfl]
    simp [hc, hX]

theorem noWsNL_cons_not_lw (c : Char) (X : List Char) (hc : isLineWs c = false)
    (hX : noWsNL X = true) : noWsNL (c :: X) = true := by
  rcases X with _ | ⟨d, ds⟩
  · rfl
  · rw [show noWsNL (c :: d :: ds) = (!(isLineWs c && d == '\n') && noWsNL (d :: ds)) from rfl]
    simp [hc, hX]

theorem cap0_cons_head (d : Char) (ds : List Char) :
    ∃ rest, capRunsNL 2 0 (d :: ds) = d :: rest := by
  by_cases hd : d = '\n'
  · subst hd
    exact ⟨capRunsNL 2 1 ds, capRuns_cons_nl 2 0 ds (by omega)⟩
  · exact ⟨capRunsNL 2 0 ds, capRuns_cons_other 2 0 d ds hd⟩

theorem cap_noDbl : ∀ (t : List Char) (n : Nat), noDbl t = true →
    noDbl (capRunsNL 2 n t) = true := by
  intro t
  induction t with
  | nil => intro _ _; rfl
  | cons c cs ih =>
    intro n h
    by_cases hc : c = '\n'
    · subst hc
      by_cases h2 : 2 ≤ n
      · rw [capRuns_cons_nl_drop 2 n cs h2]
        exact ih n (noDbl_tail h)
      · rw [capRuns_cons_nl 2 n cs h2]
        exact noDbl_cons_not_ht '\n' _ (by decide) (ih (n + 1) (noDbl_tail h))
    · rw [capRuns_cons_other 2 n c cs hc]
      rcases hcs : cs with _ | ⟨d, ds⟩
      · rfl
      · obtain ⟨rest, hrest⟩ := cap0_cons_head d ds
        rw [hrest]
        rw [show noDbl (c :: d :: rest) = (!(isHT c && isHT d) && noDbl (d :: rest)) from rfl]
        have hclause : (!(isHT c && isHT d)) = true := by
          rw [hcs] at h
          rw [show noDbl (c :: d :: ds) = (!(isHT c && isHT d) && noDbl (d :: ds)) from rfl] at h
          exact (andE h).1
        have hrec : noDbl (d :: rest) = true := by
          have := ih 0 (by rw [hcs] at h ⊢; exact noDbl_tail h)
          rw [hcs, hrest] at this
          exact this
        simp only [hclause, hrec, Bool.and_self]

theorem cap_noWsNL : ∀ (t : List Char) (n : Nat), noWsNL t = true →
    noWsNL (capRunsNL 2 n t) = true := by
  intro t
  induction t with
  | nil => intro _ _; rfl
  | cons c cs ih =>
    intro n h
    by_cases hc : c = '\n'
    · subst hc
      by_cases h2 : 2 ≤ n
      · rw [capRuns_cons_nl_drop 2 n cs h2]
        exact ih n (noWsNL_tail h)
      · rw [capRuns_cons_nl 2 n cs h2]
        exact noWsNL_cons_not_lw '\n' _ (by decide) (ih (n + 1) (noWsNL_tail h))
    · rw [capRuns_cons_other 2 n c cs hc]
      rcases hcs : cs with _ | ⟨d, ds⟩
      · rfl
      · obtain ⟨rest, hrest⟩ := cap0_cons_head d ds
        rw [hrest]
        rw [show noWsNL (c :: d :: rest) = (!(isLineWs c && d == '\n') && noWsNL (d :: rest)) from rfl]
        have hclause : (!(isLineWs c && d == '\n')) = true := by
          rw [hcs] at h
          rw [show noWsNL (c :: d :: ds) = (!(isLineWs c && d == '\n') && noWsNL (d :: ds)) from rfl] at h
          exact (andE h).1
        have hrec : noWsNL (d :: rest) = true := by
          have := ih 0 (by rw [hcs] at h ⊢; exact noWsNL_tail h)
          rw [hcs, hrest] at this
          exact this
        simp only [hclause, hrec, Bool.and_self]

theorem cap_ne_nil : ∀ (cs : List Char) (n : Nat), lastNotWs cs = true → cs ≠ [] →
    capRunsNL 2 n cs ≠ [] := by
  intro cs
  induction cs with
  | nil => intro n _ h; exact absurd rfl h
  | cons c cs ih =>
    intro n hl _
    by_cases hc : c = '\n'
    · subst hc
      cases cs with
      | nil => simp [lastNotWs, isPyWs] at hl
      | cons d ds =>
        by_cases h2 : 2 ≤ n
        · rw [capRuns_cons_nl_drop 2 n (d :: ds) h2]
          exact ih n (by rwa [lastNotWs_cons_of_ne (by simp)] at hl) (by simp)
        · rw [capRuns_cons_nl 2 n (d :: ds) h2]
          simp
    · rw [capRuns_cons_other 2 n c cs hc]
      simp

theorem cap_lastNotWs : ∀ (t : List Char) (n : Nat), lastNotWs t = true →
    lastNotWs (capRunsNL 2 n t) = true := by
  intro t
  induction t with
  | nil => intro _ _; rfl
  | cons c cs ih =>
    intro n hl
    cases cs with
    | nil =>
      have hpw : isPyWs c = false := by simpa [lastNotWs] using hl
      have hc : ¬c = '\n' := by
        intro h
        rw [h] at hpw
        simp [isPyWs] at hpw
      rw [capRuns_cons_other 2 n c [] hc]
      simpa [lastNotWs] using hpw
    | cons d ds =>
      have hl' : lastNotWs (d :: ds) = true := by
        rwa [lastNotWs_cons_of_ne (by simp)] at hl
      by_cases hc : c = '\n'
      · subst hc
        by_cases h2 : 2 ≤ n
        · rw [capRuns_cons_nl_drop 2 n (d :: ds) h2]
          exact ih n hl'
        · rw [capRuns_cons_nl 2 n (d :: ds) h2]
          rw [lastNotWs_cons_of_ne (cap_ne_nil (d :: ds) (n + 1) hl' (by simp))]
          exact ih (n + 1) hl'
      · rw [capRuns_cons_other 2 n c (d :: ds) hc]
        rw [lastNotWs_cons_of_ne (cap_ne_nil (d :: ds) 0 hl' (by simp))]
        exact ih 0 hl'

theorem cap_headNotWs (t : List Char) (n : Nat) (h : headNotWs t = true) :
    headNotWs (capRunsNL 2 n t) = true := by
  cases t with
  | nil => rfl
  | cons c cs =>
    have hpw : isPyWs c = false := by simpa [headNotWs] using h
    have hc : ¬c = '\n' := by
      intro hcc
      rw [hcc] at hpw
      simp [isPyWs] at hpw
    rw [capRuns_cons_other 2 n c cs hc]
    simpa [headNotWs] using hpw

theorem all_dropWhile (P q : Char → Bool) (l : List Char) (h : l.all P = true) :
    (l.dropWhile q).all P = true := by
  induction l with
  | nil => rfl
  | cons c cs ih =>
    simp only [List.all_cons, Bool.and_eq_true] at h
    by_cases hq : q c = true
    · simp only [List.dropWhile, hq]
      exact ih h.2
    · have hq' : q c = false := by simpa using hq
      simp only [List.dropWhile, hq']
      simp only [List.all_cons, Bool.and_eq_true]
      exact ⟨h.1, h.2⟩

theorem all_reverse (P : Char → Bool) (l : List Char) (h : l.all P = true) :
    l.reverse.all P = true := by
  simp only [List.all_eq_true] at h ⊢
  intro x hx
  exact h x (List.mem_reverse.mp hx)

theorem rstrip_all (P : Char → Bool) (l : List Char) (h : l.all P = true) :
    (rstripL l).all P = true := by
  unfold rstripL
  exact all_reverse P _ (all_dropWhile P isPyWs l.reverse (all_reverse P l h))

theorem splitNL_all (P : Char → Bool) : ∀ t : List Char, t.all P = true →
    ∀ l ∈ splitNL t, l.all P = true := by
  intro t
  induction t with
  | nil =>
    intro _ l hl
    have : l = [] := by simpa [splitNL] using hl
    rw [this]
    rfl
  | cons c cs ih =>
    intro h l hl
    simp only [List.all_cons, Bool.and_eq_true] at h
    by_cases hc : c = '\n'
    · subst hc
      rw [splitNL_cons_nl] at hl
      rcases List.mem_cons.mp hl with h' | h'
      · rw [h']; rfl
      · exact ih h.2 l h'
    · rcases hcs : splitNL cs with _ | ⟨l₀, ls⟩
      · exact absurd hcs (splitNL_ne_nil cs)
      rw [splitNL_cons_other c cs hc l₀ ls hcs] at hl
      rcases List.mem_cons.mp hl with h' | h'
      · rw [h']
        simp only [List.all_cons, Bool.and_eq_true]
        exact ⟨h.1, ih h.2 l₀ (by rw [hcs]; exact List.mem_cons_self _ _)⟩
      · exact ih h.2 l (by rw [hcs]; exact List.mem_cons_of_mem _ h')

theorem splitNL_no_nl : ∀ t : List Char, ∀ l ∈ splitNL t, l.all (fun c => c != '\n') = true := by
  intro t
  induction t with
  | nil =>
    intro l hl
    have : l = [] := by simpa [splitNL] using hl
    rw [this]
    rfl
  | cons c cs ih =>
    intro l hl
    by_cases hc : c = '\n'
    · subst hc
      rw [splitNL_cons_nl] at hl
      rcases List.mem_cons.mp hl with h' | h'
      · rw [h']; rfl
      · exact ih l h'
    · rcases hcs : splitNL cs with _ | ⟨l₀, ls⟩
      · exact absurd hcs (splitNL_ne_nil cs)
      rw [splitNL_cons_other c cs hc l₀ ls hcs] at hl
      rcases List.mem_cons.mp hl with h' | h'
      · rw [h']
        simp only [List.all_cons, Bool.and_eq_true]
        exact ⟨by simpa using hc, ih l₀ (by rw [hcs]; exact List.mem_cons_self _ _)⟩
      · exact ih l (by rw [hcs]; exact List.mem_cons_of_mem _ h')

theorem joinNL_all (P : Char → Bool) (hnl : P '\n' = true) :
    ∀ ls : List (List Char), (∀ l ∈ ls, l.all P = true) → (joinNL ls).all P = true := by
  intro ls
  induction ls with
  | nil => intro _; rfl
  | cons l ls ih =>
    intro h
    cases ls with
    | nil =>
      exact h l (List.mem_cons_self _ _)
    | cons l₂ ls₂ =>
      show (l ++ '\n' :: joinNL (l₂ :: ls₂)).all P = true
      rw [List.all_append]
      simp only [Bool.and_eq_true, List.all_cons]
      refine ⟨h l (List.mem_cons_self _ _), hnl, ?_⟩
      have := ih fun x hx => h x (List.mem_cons_of_mem _ hx)
      simpa using this

theorem rstripLines_all (P : Char → Bool) (hnl : P '\n' = true) (t : List Char)
    (h : t.all P = true) : (rstripLines t).all P = true := by
  unfold rstripLines
  apply joinNL_all P hnl
  intro l hl
  rcases List.mem_map.mp hl with ⟨l₀, hl₀, rfl⟩
  exact rstrip_all P l₀ (splitNL_all P t h l₀ hl₀)

theorem noDbl_append_left : ∀ u v : List Char, noDbl (u ++ v) = true → noDbl u = true := by
  intro u
  induction u with
  | nil => intro _ _; rfl
  | cons a rest ih =>
    intro v h
    cases rest with
    | nil => rfl
    | cons b u' =>
      rw [show ((a :: b :: u') ++ v) = a :: b :: (u' ++ v) from rfl] at h
      rw [show noDbl (a :: b :: (u' ++ v)) =
        (!(isHT a && isHT b) && noDbl (b :: (u' ++ v))) from rfl] at h
      obtain ⟨h1, h2⟩ := andE h
      rw [show noDbl (a :: b :: u') = (!(isHT a && isHT b) && noDbl (b :: u')) from rfl]
      rw [h1, ih v h2]
      rfl

theorem noDbl_append_right : ∀ u v : List Char, noDbl (u ++ v) = true → noDbl v = true := by
  intro u
  induction u with
  | nil => intro v h; exact h
  | cons a rest ih =>
    intro v h
    exact ih v (noDbl_tail h)

theorem noDbl_of_isPre (u v : List Char) (hp : u <+: v) (h : noDbl v = true) :
    noDbl u = true := by
  obtain ⟨w, hw⟩ := hp
  exact noDbl_append_left u w (hw ▸ h)

theorem noDbl_append_mid : ∀ u v : List Char, noDbl u = true → noDbl v = true →
    noDbl (u ++ '\n' :: v) = true := by
  intro u
  induction u with
  | nil => intro v _ hv; exact noDbl_cons_not_ht '\n' v (by decide) hv
  | cons a rest ih =>
    intro v hu hv
    cases rest with
    | nil =>
      show noDbl (a :: '\n' :: v) = true
      rw [show noDbl (a :: '\n' :: v) = (!(isHT a && isHT '\n') && noDbl ('\n' :: v)) from rfl]
      rw [noDbl_cons_not_ht '\n' v (by decide) hv]
      simp [isHT]
    | cons b u' =>
      show noDbl (a :: b :: (u' ++ '\n' :: v)) = true
      rw [show noDbl (a :: b :: (u' ++ '\n' :: v)) =
        (!(isHT a && isHT b) && noDbl (b :: (u' ++ '\n' :: v))) from rfl]
      rw [show noDbl (a :: b :: u') = (!(isHT a && isHT b) && noDbl (b :: u')) from rfl] at hu
      obtain ⟨h1, h2⟩ := andE hu
      rw [h1]
      have := ih v h2 hv
      rw [show ((b :: u') ++ '\n' :: v) = b :: (u' ++ '\n' :: v) from rfl] at this
      rw [this]
      rfl

theorem noWsNL_append_right : ∀ u v : List Char, noWsNL (u ++ v) = true → noWsNL v = true := by
  intro u
  induction u with
  | nil => intro v h; exact h
  | cons a rest ih =>
    intro v h
    exact ih v (noWsNL_tail h)

theorem noWsNL_append_left : ∀ u v : List Char, noWsNL (u ++ v) = true → noWsNL u = true := by
  intro u
  induction u with
  | nil => intro _ _; rfl
  | cons a rest ih =>
    intro v h
    cases rest with
    | nil => rfl
    | cons b u' =>
      rw [show ((a :: b :: u') ++ v) = a :: b :: (u' ++ v) from rfl] at h
      rw [show noWsNL (a :: b :: (u' ++ v)) =
        (!(isLineWs a && b == '\n') && noWsNL (b :: (u' ++ v))) from rfl] at h
      obtain ⟨h1, h2⟩ := andE h
      rw [show noWsNL (a :: b :: u') = (!(isLineWs a && b == '\n') && noWsNL (b :: u')) from rfl]
      rw [h1, ih v h2]
      rfl

theorem noWsNL_of_isPre (u v : List Char) (hp : u <+: v) (h : noWsNL v = true) :
    noWsNL u = true := by
  obtain ⟨w, hw⟩ := hp
  exact noWsNL_append_left u w (hw ▸ h)

theorem isLineWs_false_of_not_ws (c : Char) (h : isPyWs c = false) : isLineWs c = false := by
  unfold isLineWs
  rw [h]
  rfl

theorem noWsNL_of_no_nl : ∀ X : List Char, X.all (fun c => c != '\n') = true →
    noWsNL X = true := by
  intro X
  induction X with
  | nil => intro _; rfl
  | cons c cs ih =>
    intro h
    simp only [List.all_cons, Bool.and_eq_true] at h
    cases cs with
    | nil => rfl
    | cons d ds =>
      rw [show noWsNL (c :: d :: ds) = (!(isLineWs c && d == '\n') && noWsNL (d :: ds)) from rfl]
      have hd : (d == '\n') = false := by
        have := h.2
        simp only [List.all_cons, Bool.and_eq_true] at this
        simpa using this.1
      rw [ih h.2]
      simp [hd]

theorem noWsNL_append_mid : ∀ u v : List Char, u.all (fun c => c != '\n') = true →
    lastNotWs u = true → noWsNL v = true → noWsNL (u ++ '\n' :: v) = true := by
  intro u
  induction u with
  | nil => intro v _ _ hv; exact noWsNL_cons_not_lw '\n' v (by decide) hv
  | cons a rest ih =>
    intro v hnl hlast hv
    simp only [List.all_cons, Bool.and_eq_true] at hnl
    cases rest with
    | nil =>
      show noWsNL (a :: '\n' :: v) = true
      have hla : isLineWs a = false :=
        isLineWs_false_of_not_ws a (by simpa [lastNotWs] using hlast)
      rw [show noWsNL (a :: '\n' :: v) = (!(isLineWs a && '\n' == '\n') && noWsNL ('\n' :: v)) from rfl]
      rw [noWsNL_cons_not_lw '\n' v (by decide) hv]
      simp [hla]
    | cons b u' =>
      show noWsNL (a :: b :: (u' ++ '\n' :: v)) = true
      have hb : (b == '\n') = false := by
        have := hnl.2
        simp only [List.all_cons, Bool.and_eq_true] at this
        simpa using this.1
      rw [show noWsNL (a :: b :: (u' ++ '\n' :: v)) =
        (!(isLineWs a && b == '\n') && noWsNL (b :: (u' ++ '\n' :: v))) from rfl]
      have := ih v hnl.2 (by rwa [lastNotWs_cons_of_ne (by simp)] at hlast) hv
      rw [show ((b :: u') ++ '\n' :: v) = b :: (u' ++ '\n' :: v) from rfl] at this
      rw [this]
      simp [hb]

theorem join_map_rstrip_noDbl : ∀ ls : List (List Char), noDbl (joinNL ls) = true →
    noDbl (joinNL (ls.map rstripL)) = true := by
  intro ls
  induction ls with
  | nil => intro _; rfl
  | cons l ls ih =>
    intro h
    cases ls with
    | nil =>
      show noDbl (rstripL l) = true
      exact noDbl_of_isPre _ _ (rstrip_isPre l) h
    | cons l₂ ls₂ =>
      show noDbl (rstripL l ++ '\n' :: joinNL ((l₂ :: ls₂).map rstripL)) = true
      have h' : noDbl (l ++ '\n' :: joinNL (l₂ :: ls₂)) = true := h
      have hl : noDbl l = true := noDbl_append_left _ _ h'
      have hrest : noDbl (joinNL (l₂ :: ls₂)) = true := noDbl_tail (noDbl_append_right _ _ h')
      exact noDbl_append_mid _ _ (noDbl_of_isPre _ _ (rstrip_isPre l) hl) (ih hrest)

theorem rstripLines_noDbl (t : List Char) (h : noDbl t = true) :
    noDbl (rstripLines t) = true := by
  unfold rstripLines
  apply join_map_rstrip_noDbl
  rw [joinNL_splitNL]
  exact h

theorem join_map_rstrip_noWsNL : ∀ ls : List (List Char),
    (∀ l ∈ ls, l.all (fun c => c != '\n') = true) →
    noWsNL (joinNL (ls.map rstripL)) = true := by
  intro ls
  induction ls with
  | nil => intro _; rfl
  | cons l ls ih =>
    intro h
    cases ls with
    | nil =>
      show noWsNL (rstripL l) = true
      exact noWsNL_of_no_nl _ (rstrip_all _ l (h l (List.mem_cons_self _ _)))
    | cons l₂ ls₂ =>
      show noWsNL (rstripL l ++ '\n' :: joinNL ((l₂ :: ls₂).map rstripL)) = true
      exact noWsNL_append_mid _ _ (rstrip_all _ l (h l (List.mem_cons_self _ _)))
        (rstrip_lastNotWs l) (ih fun x hx => h x (List.mem_cons_of_mem _ hx))

theorem rstripLines_noWsNL (t : List Char) : noWsNL (rstripLines t) = true := by
  unfold rstripLines
  exact join_map_rstrip_noWsNL (splitNL t) (splitNL_no_nl t)

theorem noDbl_dropWhile (x : List Char) (h : noDbl x = true) :
    noDbl (x.dropWhile isPyWs) = true := by
  obtain ⟨u, hu⟩ := dropWhile_suffix_decomp isPyWs x
  exact noDbl_append_right u _ (by rw [← hu]; exact h)

theorem noWsNL_dropWhile (x : List Char) (h : noWsNL x = true) :
    noWsNL (x.dropWhile isPyWs) = true := by
  obtain ⟨u, hu⟩ := dropWhile_suffix_decomp isPyWs x
  exact noWsNL_append_right u _ (by rw [← hu]; exact h)

theorem lastNotWs_append_right : ∀ u s : List Char, lastNotWs (u ++ s) = true →
    lastNotWs s = true := by
  intro u
  induction u with
  | nil => exact fun s h => h
  | cons a u' ih =>
    intro s h
    by_cases hus : u' ++ s = []
    · have : s = [] := (List.append_eq_nil.mp hus).2
      rw [this]
      rfl
    · rw [List.cons_append, lastNotWs_cons_of_ne hus] at h
      exact ih s h

theorem lastNotWs_dropWhile (x : List Char) (h : lastNotWs x = true) :
    lastNotWs (x.dropWhile isPyWs) = true := by
  obtain ⟨u, hu⟩ := dropWhile_suffix_decomp isPyWs x
  exact lastNotWs_append_right u _ (by rw [← hu]; exact h)

theorem normalize_nf (t : List Char) :
    noTab (normalizeWhitespace t) = true ∧ noDbl (normalizeWhitespace t) = true ∧
    noWsNL (normalizeWhitespace t) = true ∧ lastNotWs (normalizeWhitespace t) = true ∧
    headNotWs (normalizeWhitespace t) = true := by
  unfold normalizeWhitespace stripL lstripL
  refine ⟨?_, ?_, ?_, ?_, ?_⟩
  · exact all_dropWhile _ isPyWs _ (rstrip_all _ _ (rstripLines_all _ (by decide) _
      (cap_all _ _ 0 (collapse_noTab t false))))
  · exact noDbl_dropWhile _ (noDbl_of_isPre _ _ (rstrip_isPre _)
      (rstripLines_noDbl _ (cap_noDbl _ 0 (collapse_noDbl t false))))
  · exact noWsNL_dropWhile _ (noWsNL_of_isPre _ _ (rstrip_isPre _) (rstripLines_noWsNL _))
  · exact lastNotWs_dropWhile _ (rstrip_lastNotWs _)
  · exact headNotWs_dropWhile _

/-- C7 counterexample: the whitespace normalizer is not idempotent — a line
of pure whitespace between two blank lines is rstripped to an empty line in
the first pass, creating a longer newline run that only the second pass's
newline cap collapses. -/
theorem claim_C7_cex :
    normalizeWhitespace (normalizeWhitespace (chars "a\n\n \n\nb")) ≠
      normalizeWhitespace (chars "a\n\n \n\nb") := by
  decide

/-- C7 amended: the whitespace normalizer is not idempotent on all strings,
but a second application is: its double image is a fixpoint, so for every
string a third application changes nothing. -/
theorem claim_C7 : ∀ t : List Char,
    normalizeWhitespace (normalizeWhitespace (normalizeWhitespace t)) =
      normalizeWhitespace (normalizeWhitespace t) := by
  intro t
  obtain ⟨hA, hB, hC, hD, hE⟩ := normalize_nf t
  set r := normalizeWhitespace t with hr
  have hq : normalizeWhitespace r = capRunsNL 2 0 r := by
    unfold normalizeWhitespace
    rw [collapse_noop r hA hB]
    rw [rstripLines_noop (capRunsNL 2 0 r) (cap_noWsNL r 0 hC) (cap_lastNotWs r 0 hD)]
    unfold stripL
    rw [rstripL_eq_self _ (cap_lastNotWs r 0 hD), lstripL_eq_self _ (cap_headNotWs r 0 hE)]
  have hfix : normalizeWhitespace (capRunsNL 2 0 r) = capRunsNL 2 0 r :=
    normalize_noop _ (cap_all _ r 0 hA) (cap_noDbl r 0 hB) ((cap_no3 r).1)
      (cap_noWsNL r 0 hC) (cap_lastNotWs r 0 hD) (cap_headNotWs r 0 hE)
  rw [hq, hfix]

end MboxClean
